import Mathlib

/-!
# Verification of the d2l-en-colab notebook utilities

This file gives a shallow embedding, in Lean 4, of the Python functions
defined in the notebooks of the repository:

* `MySequential` (chapter_deep-learning-computation/model-construction.ipynb),
* `FixedHiddenMLP.forward`'s halving loop (same notebook),
* `TokenEmbedding`, `knn` and `get_analogy`
  (chapter_deep-learning-computation/read-write.ipynb),
* `read_csv_labels`, `copyfile`, `reorg_train_valid`, `reorg_test` and the
  submission-id construction (chapter_computer-vision/kaggle-gluon-cifar10.ipynb),

together with proofs of functional-correctness, invariant, error-handling and
frame properties of these functions.

Modelling conventions:
* Python `dict`s (insertion ordered, assignment replaces in place) are
  association lists with an insert-or-replace operation `pyDictInsert`.
* File-system paths are lists of path components (`os.path.join` appends a
  component); the file system itself is a partial map from paths to contents.
* Numeric values computed with `numpy` real arithmetic are modelled over `ℝ`
  (the halving loop of `FixedHiddenMLP`, which uses only exact halving and
  comparisons, is modelled over `ℚ`).
* Fallible Python code (KeyError / IndexError / ValueError / IOError) is
  modelled with `Except PyError` or `Option`.
-/

namespace D2L

/-- Python `dict` assignment `d[k] = v` (Python 3.7+ semantics, also that of
`collections.OrderedDict` used by Gluon's `Block._children`): if the key is
already present its value is replaced, keeping its position; otherwise the
binding is appended at the end. -/
def pyDictInsert {β : Type _} (d : List (String × β)) (k : String) (v : β) :
    List (String × β) :=
  if (d.map Prod.fst).contains k then
    d.map (fun p => if p.1 = k then (p.1, v) else p)
  else
    d ++ [(k, v)]

/-- Python `dict` lookup `d.get(k)`: the value of the first (in a well-formed
dict, unique) binding of `k`. -/
def dictLookup {β : Type _} (d : List (String × β)) (k : String) : Option β :=
  (d.find? (fun p => p.1 == k)).map Prod.snd

/-- Build a Python `dict` from a list of key-value pairs, later bindings
overwriting earlier ones (the semantics of a Python dict comprehension). -/
def pyDictOf {β : Type _} (l : List (String × β)) : List (String × β) :=
  l.foldl (fun d p => pyDictInsert d p.1 p.2) []

/-- Python `enumerate(l, start)`, pairing each element with its index. -/
def pyEnumerate {α : Type _} : ℕ → List α → List (ℕ × α)
  | _, [] => []
  | s, a :: l => (s, a) :: pyEnumerate (s + 1) l

/-! ## `MySequential` (model-construction.ipynb)

```python
class MySequential(nn.Block):
    def add(self, block):
        self._children[block.name] = block

    def forward(self, x):
        for block in self._children.values():
            x = block(x)
        return x
```

`_children` is an `OrderedDict`; a block is modelled by its name together
with the function it computes. -/

/-- Model of `MySequential.add`: store the block in the `_children` ordered dictionary
under its name. -/
def mySeqAdd {α : Type _} (d : List (String × (α → α))) (name : String)
    (f : α → α) : List (String × (α → α)) :=
  pyDictInsert d name f

/-- Model of `MySequential.forward`: apply the children in the order of the
`OrderedDict`. -/
def mySeqForward {α : Type _} (d : List (String × (α → α))) (x : α) : α :=
  d.foldl (fun y p => p.2 y) x

/-- Building a `MySequential` by calling `add` once per block, in order. -/
def mySeqOf {α : Type _} (blocks : List (String × (α → α))) :
    List (String × (α → α)) :=
  blocks.foldl (fun d b => mySeqAdd d b.1 b.2) []

/-! ## `TokenEmbedding` (read-write.ipynb)

```python
class TokenEmbedding:
    def __init__(self, embedding_name):
        self.idx_to_token, self.idx_to_vec = self._load_embedding(
            embedding_name)
        self.unknown_idx = 0
        self.token_to_idx = {token: idx for idx, token in
                             enumerate(self.idx_to_token)}

    def _load_embedding(self, embedding_name):
        idx_to_token, idx_to_vec = ['<unk>'], []
        with open(os.path.join(data_dir, 'vec.txt'), 'r') as f:
            for line in f:
                elems = line.rstrip().split(' ')
                token, elems = elems[0], [float(elem) for elem in elems[1:]]
                if len(elems) > 1:
                    idx_to_token.append(token)
                    idx_to_vec.append(elems)
        idx_to_vec = [[0] * len(idx_to_vec[0])] + idx_to_vec
        return idx_to_token, np.array(idx_to_vec)

    def __getitem__(self, tokens):
        indices = [self.token_to_idx.get(token, self.unknown_idx)
                   for token in tokens]
        vecs = self.idx_to_vec[np.array(indices)]
        return vecs

    def __len__(self):
        return len(self.idx_to_token)
```

The embedding file is modelled as its parsed lines: a list of
(token, numeric entries) pairs; the numeric entries are real numbers. -/

structure TokenEmbedding where
  idx_to_token : List String
  idx_to_vec : List (List ℝ)
  unknown_idx : ℕ
  token_to_idx : List (String × ℕ)

/-- Model of `TokenEmbedding._load_embedding`: keep the lines with more than one
numeric entry (skipping header lines), put `'<unk>'` first, and prepend the
all-zeros row (of the dimension of the first kept row) to the vector table.
On a file with no kept line, `idx_to_vec[0]` raises `IndexError` in Python:
modelled by `none`. -/
def keptLines (lines : List (String × List ℝ)) : List (String × List ℝ) :=
  lines.filter (fun p => decide (1 < p.2.length))

def loadEmbedding (lines : List (String × List ℝ)) :
    Option (List String × List (List ℝ)) :=
  match (keptLines lines).map Prod.snd with
  | [] => none
  | v :: vs =>
      some ("<unk>" :: (keptLines lines).map Prod.fst,
        List.replicate v.length 0 :: v :: vs)

/-- The `token_to_idx` dict comprehension
`{token: idx for idx, token in enumerate(idx_to_token)}`. -/
def tokenToIdxOf (toks : List String) : List (String × ℕ) :=
  pyDictOf ((pyEnumerate 0 toks).map (fun p => (p.2, p.1)))

/-- Model of `TokenEmbedding.__init__` for an embedding file given by `lines`. -/
def mkTokenEmbedding (lines : List (String × List ℝ)) : Option TokenEmbedding :=
  (loadEmbedding lines).map (fun p =>
    { idx_to_token := p.1
      idx_to_vec := p.2
      unknown_idx := 0
      token_to_idx := tokenToIdxOf p.1 })

/-- Model of `TokenEmbedding.__getitem__`: one row per input token, a missing token
falling back to the reserved `unknown_idx`. -/
def tokenEmbeddingGetItem (E : TokenEmbedding) (tokens : List String) :
    List (List ℝ) :=
  tokens.map (fun t =>
    E.idx_to_vec.getD ((dictLookup E.token_to_idx t).getD E.unknown_idx) [])

/-- Model of `TokenEmbedding.__len__`. -/
def tokenEmbeddingLen (E : TokenEmbedding) : ℕ :=
  E.idx_to_token.length

/-! ## `knn` and `get_analogy` (read-write.ipynb)

```python
def knn(W, x, k):
    # The added 1e-9 is for numerical stability
    cos = np.dot(W, x.reshape(-1,)) / (
        np.sqrt(np.sum(W * W, axis=1) + 1e-9) * np.sqrt((x * x).sum()))
    topk = npx.topk(cos, k=k, ret_typ='indices')
    return topk, [cos[int(i)] for i in topk]

def get_analogy(token_a, token_b, token_c, embed):
    vecs = embed[[token_a, token_b, token_c]]
    x = vecs[1] - vecs[0] + vecs[2]
    topk, cos = knn(embed.idx_to_vec, x, 1)
    return embed.idx_to_token[int(topk[0])]  # Remove unknown words
```

`npx.topk(cos, k, ret_typ='indices')` returns the indices of the `k` largest
entries of `cos`, ordered by decreasing value; it is modelled by sorting the
index list by decreasing score and taking the first `k`. -/

noncomputable section

/-- Row dot product (`np.dot` of two equal-length vectors). -/
def dotL (a b : List ℝ) : ℝ := (List.zipWith (fun s t => s * t) a b).sum

/-- The per-row cosine scores
`np.dot(W, x) / (np.sqrt(np.sum(W*W, axis=1) + 1e-9) * np.sqrt((x*x).sum()))`. -/
def cosScores (W : List (List ℝ)) (x : List ℝ) : List ℝ :=
  W.map (fun w =>
    dotL w x / (Real.sqrt (dotL w w + 1e-9) * Real.sqrt (dotL x x)))

/-- Model of `npx.topk(v, k, ret_typ='indices')`. -/
def npxTopk (v : List ℝ) (k : ℕ) : List ℕ :=
  (List.insertionSort (fun i j => v.getD j 0 ≤ v.getD i 0)
    (List.range v.length)).take k

/-- Model of `knn(W, x, k)`: the top-`k` indices together with their scores. -/
def knn (W : List (List ℝ)) (x : List ℝ) (k : ℕ) : List ℕ × List ℝ :=
  (npxTopk (cosScores W x) k,
    (npxTopk (cosScores W x) k).map (fun i => (cosScores W x).getD i 0))

/-- Model of `get_analogy(token_a, token_b, token_c, embed)`: the token of the single
nearest-neighbor index of `vec(b) - vec(a) + vec(c)`, searched over the whole
embedding table (no index is excluded). -/
def getAnalogy (ta tb tc : String) (E : TokenEmbedding) : String :=
  E.idx_to_token.getD
    ((knn E.idx_to_vec
      (List.zipWith (fun s t => s + t)
        (List.zipWith (fun s t => s - t)
          ((tokenEmbeddingGetItem E [ta, tb, tc]).getD 1 [])
          ((tokenEmbeddingGetItem E [ta, tb, tc]).getD 0 []))
        ((tokenEmbeddingGetItem E [ta, tb, tc]).getD 2 [])) 1).1.getD 0 0) ""

end

/-- A concrete three-token embedding file used as witness input. -/
def exLines : List (String × List ℝ) :=
  [("a", [1, 0]), ("b", [1, 0]), ("c", [0, 1])]

/-- The query vector `vec('b') - vec('a') + vec('c')` of the `exLines`
embedding, as `get_analogy` computes it. -/
def exQuery : List ℝ := [1 - 1 + 0, 0 - 0 + 1]

/-! ## kaggle-gluon-cifar10.ipynb

```python
def read_csv_labels(fname):
    with open(fname, 'r') as f:
        lines = f.readlines()[1:]
    tokens = [l.rstrip().split(',') for l in lines]
    return dict(((name, label) for name, label in tokens))

def copyfile(filename, target_dir):
    d2l.mkdir_if_not_exist(target_dir)
    shutil.copy(filename, target_dir)

def reorg_train_valid(data_dir, labels, valid_ratio):
    n = collections.Counter(labels.values()).most_common()[-1][1]
    n_valid_per_label = max(1, math.floor(n * valid_ratio))
    label_count = {}
    for train_file in os.listdir(os.path.join(data_dir, 'train')):
        label = labels[train_file.split('.')[0]]
        fname = os.path.join(data_dir, 'train', train_file)
        copyfile(fname, os.path.join(data_dir, 'train_valid_test',
                                     'train_valid', label))
        if label not in label_count or label_count[label] < n_valid_per_label:
            copyfile(fname, os.path.join(data_dir, 'train_valid_test',
                                         'valid', label))
            label_count[label] = label_count.get(label, 0) + 1
        else:
            copyfile(fname, os.path.join(data_dir, 'train_valid_test',
                                         'train', label))
    return n_valid_per_label

def reorg_test(data_dir):
    for test_file in os.listdir(os.path.join(data_dir, 'test')):
        copyfile(os.path.join(data_dir, 'test', test_file),
                 os.path.join(data_dir, 'train_valid_test', 'test',
                              'unknown'))
```

Paths are lists of components (`os.path.join` appends a component); a file
system is a partial map from paths to contents; `shutil.copy(src, d)` writes
`d/basename(src)` with the contents of `src`. The directory listing
`os.listdir` is an arbitrary (duplicate-free) list of file names.
`valid_ratio` (a Python float) is modelled as a rational. -/

/-- The errors the notebook code can raise; none is ever caught. -/
inductive PyError
  | keyError (k : String)
  | indexError
  | valueError
  | ioError (msg : String)
deriving DecidableEq

/-- One `shutil.copy(src, target_dir)` call: source file path and target
directory path. -/
structure Copy where
  src : List String
  dest : List String
deriving DecidableEq

/-- Python `fname.split('.')[0]`: the part of the name before the first dot
(the whole name when there is no dot). -/
def stem (s : String) : String :=
  String.mk (s.data.takeWhile (fun c => c ≠ '.'))

/-- Model of `read_csv_labels(fname)`, applied to the outcome of opening and reading
the file: an I/O error propagates unchanged; otherwise the header line is
dropped, each line is split on `','`, and the (name, label) pairs are
collected into a dict (a line without exactly two fields makes the tuple
unpacking raise `ValueError`). -/
def readCsvLabels (contents : Except PyError (List String)) :
    Except PyError (List (String × String)) :=
  match contents with
  | .error e => .error e
  | .ok lines =>
      if ((lines.drop 1).map (fun l => l.splitOn ",")).all
          (fun t => t.length == 2) then
        .ok (pyDictOf (((lines.drop 1).map (fun l => l.splitOn ",")).map
          (fun t => (t.getD 0 "", t.getD 1 ""))))
      else
        .error .valueError

/-- Model of `collections.Counter(labels.values()).most_common()[-1][1]`: the number
of occurrences of the least common label value (`none` on an empty dict,
where Python raises `IndexError`). -/
def minClassCount (labels : List (String × String)) : Option ℕ :=
  ((labels.map Prod.snd).dedup.map
    (fun v => (labels.map Prod.snd).count v)).min?

/-- Model of `n_valid_per_label = max(1, math.floor(n * valid_ratio))`. -/
def nValidPerLabel (n : ℕ) (ratio : ℚ) : ℕ :=
  (max 1 ⌊(n : ℚ) * ratio⌋).toNat

/-- Model of `os.path.join(data_dir, 'train', f)`. -/
def trainSrcPath (dataDir : List String) (f : String) : List String :=
  dataDir ++ ["train", f]

/-- Model of `os.path.join(data_dir, 'train_valid_test', sub, label)`. -/
def tvtDir (dataDir : List String) (sub label : String) : List String :=
  dataDir ++ ["train_valid_test", sub, label]

/-- The loop body of `reorg_train_valid` over the listing of
`data_dir/train`, threading the `label_count` dict and collecting the
`copyfile` calls; a file whose stem is not a key of `labels` raises
`KeyError`. -/
def reorgLoop (dataDir : List String) (labels : List (String × String))
    (nv : ℕ) : List String → (String → Option ℕ) → Except PyError (List Copy)
  | [], _ => .ok []
  | f :: rest, cnt =>
      match dictLookup labels (stem f) with
      | none => .error (.keyError (stem f))
      | some label =>
          if cnt label = none ∨ (cnt label).getD 0 < nv then
            (fun cs => ⟨trainSrcPath dataDir f,
                tvtDir dataDir "train_valid" label⟩ ::
              ⟨trainSrcPath dataDir f, tvtDir dataDir "valid" label⟩ :: cs) <$>
              reorgLoop dataDir labels nv rest
                (fun l => if l = label then some ((cnt label).getD 0 + 1)
                  else cnt l)
          else
            (fun cs => ⟨trainSrcPath dataDir f,
                tvtDir dataDir "train_valid" label⟩ ::
              ⟨trainSrcPath dataDir f, tvtDir dataDir "train" label⟩ :: cs) <$>
              reorgLoop dataDir labels nv rest cnt

/-- Model of `reorg_train_valid(data_dir, labels, valid_ratio)` on the listing
`files` of `data_dir/train`. -/
def reorgTrainValid (dataDir : List String) (labels : List (String × String))
    (ratio : ℚ) (files : List String) : Except PyError (List Copy) :=
  match minClassCount labels with
  | none => .error .indexError
  | some n => reorgLoop dataDir labels (nValidPerLabel n ratio) files
      (fun _ => none)

/-- Model of `reorg_test(data_dir)` on the listing `files` of `data_dir/test`. -/
def reorgTest (dataDir : List String) (files : List String) : List Copy :=
  files.map (fun f => ⟨dataDir ++ ["test", f],
    dataDir ++ ["train_valid_test", "test", "unknown"]⟩)

/-- Model of `shutil.copy(src, target_dir)` on a file system: `target_dir/basename(src)`
now holds the contents of `src`; nothing else changes. -/
def applyCopy (fs : List String → Option String) (c : Copy) :
    List String → Option String :=
  fun p => if p = c.dest ++ [c.src.getLastD ""] then fs c.src else fs p

/-- Run a list of copies left to right. -/
def applyCopies (fs : List String → Option String) (cs : List Copy) :
    List String → Option String :=
  cs.foldl applyCopy fs

/-- Model of `p` lies below the directory `base`. -/
def pathUnder (base p : List String) : Prop := ∃ t, base ++ t = p

/-- Number of files of `files` whose stem is labelled `l`. -/
def labelCountIn (labels : List (String × String)) (files : List String)
    (l : String) : ℕ :=
  files.countP (fun f => dictLookup labels (stem f) == some l)

/-- Number of copies into the validation directory of class `l`. -/
def validCopies (dataDir : List String) (cs : List Copy) (l : String) : ℕ :=
  cs.countP (fun c => c.dest == tvtDir dataDir "valid" l)

/-- The copies `reorg_train_valid` performs on the concrete witness input. -/
def exCopies : List Copy :=
  [⟨["d", "train", "a.png"], ["d", "train_valid_test", "train_valid", "cat"]⟩,
   ⟨["d", "train", "a.png"], ["d", "train_valid_test", "valid", "cat"]⟩]

/-! ## The submission id column (kaggle-gluon-cifar10.ipynb)

```python
sorted_ids = list(range(1, len(test_ds) + 1))
sorted_ids.sort(key=lambda x: str(x))
df = pd.DataFrame({'id': sorted_ids, 'label': preds})
```

`list.sort(key=str)` sorts by the lexicographic order of the decimal string
representations. -/

/-- Model of `sorted_ids`: the integers `1 .. n` sorted by the string key. -/
def pySortedIds (n : ℕ) : List ℕ :=
  List.insertionSort (fun a b => toString a ≤ toString b) (List.range' 1 n)

/-- The rows of the submission `DataFrame`: ids paired positionally with the
predictions (in test-loader order). -/
def submissionRows {α : Type _} (n : ℕ) (preds : List α) : List (ℕ × α) :=
  (pySortedIds n).zip preds

/-! ## The `FixedHiddenMLP` halving loop (model-construction.ipynb)

```python
while np.abs(x).sum() > 1:
    x /= 2
return x.sum()
```

The dense/relu stages before the loop are external library calls; the vector
entering the loop is universally quantified. Halving and comparison are
exact, so the loop is modelled over `ℚ`. The loop is embedded as a
conditional iteration with an explicit fuel that the termination theorem
proves sufficient: once the condition fails the iteration stops, so with
sufficient fuel it equals the Python `while` loop. -/

/-- Model of `np.abs(x).sum()`. -/
def absSum (x : List ℚ) : ℚ := (x.map (fun r => |r|)).sum

/-- One loop iteration `x /= 2`. -/
def halveStep (x : List ℚ) : List ℚ := x.map (fun r => r / 2)

/-- Fuel sufficient for the halving loop. -/
def halveFuel (x : List ℚ) : ℕ := ⌈absSum x⌉₊

/-- The `while` loop, conditional iteration with fuel. -/
def runWhile : ℕ → List ℚ → List ℚ
  | 0, x => x
  | k + 1, x => if 1 < absSum x then runWhile k (halveStep x) else x

/-- The vector after the `while` loop of `FixedHiddenMLP.forward`. -/
def fixedHiddenLoop (x : List ℚ) : List ℚ := runWhile (halveFuel x) x

/-- The scalar `FixedHiddenMLP.forward` returns: `x.sum()` after the loop. -/
def fixedHiddenForward (x : List ℚ) : ℚ := (fixedHiddenLoop x).sum

/-- The `TokenEmbedding` built from `exLines`. -/
def exEmbedding : TokenEmbedding :=
  { idx_to_token := ["<unk>", "a", "b", "c"]
    idx_to_vec := [[0, 0], [1, 0], [1, 0], [0, 1]]
    unknown_idx := 0
    token_to_idx := [("<unk>", 0), ("a", 1), ("b", 2), ("c", 3)] }

end D2L

namespace D2L

theorem pyDictInsert_of_not_mem {β : Type _} {d : List (String × β)}
    {k : String} (v : β) (h : k ∉ d.map Prod.fst) :
    pyDictInsert d k v = d ++ [(k, v)] := by
  unfold pyDictInsert
  rw [if_neg]
  simpa using h

theorem mySeqOf_eq_self {α : Type _} (blocks : List (String × (α → α)))
    (h : (blocks.map Prod.fst).Nodup) : mySeqOf blocks = blocks := by
  induction blocks using List.reverseRecOn with
  | nil => rfl
  | append_singleton bs b ih =>
      have hmap : (bs ++ [b]).map Prod.fst = bs.map Prod.fst ++ [b.1] := by
        simp
      rw [hmap] at h
      have hnd : (bs.map Prod.fst).Nodup := (List.nodup_append.mp h).1
      have hb : b.1 ∉ bs.map Prod.fst := by
        intro hmem
        exact (List.nodup_append.mp h).2.2 hmem (by simp)
      have step : mySeqOf (bs ++ [b]) = pyDictInsert (mySeqOf bs) b.1 b.2 := by
        unfold mySeqOf
        rw [List.foldl_append]
        rfl
      rw [step, ih hnd, pyDictInsert_of_not_mem _ hb]

/-- C4: having added blocks `b_1, ..., b_n` (with pairwise distinct names) to a
`MySequential`, calling the instance on `x` computes
`b_n(...b_2(b_1(x))...)`: the forward method applies the added blocks exactly
once each, in the order in which they were added. -/
theorem mySequential_forward_comp {α : Type _}
    (blocks : List (String × (α → α))) (x : α)
    (h : (blocks.map Prod.fst).Nodup) :
    mySeqForward (mySeqOf blocks) x = blocks.foldl (fun y b => b.2 y) x := by
  rw [mySeqOf_eq_self blocks h]
  rfl

/-- Witness for C4 at a concrete input: two blocks named `"dense0"`, `"dense1"`
computing `+1` and `*2` over `ℤ`; the composite maps `3` to `(3+1)*2 = 8`. -/
theorem mySequential_forward_comp_witness :
    mySeqForward (mySeqOf [("dense0", fun y : ℤ => y + 1),
      ("dense1", fun y : ℤ => y * 2)]) 3 = 8 := by
  rw [mySequential_forward_comp _ 3 (by decide)]
  rfl

theorem dictLookup_cons {β : Type _} (q : String × β) (l : List (String × β))
    (k : String) :
    dictLookup (q :: l) k = if q.1 = k then some q.2 else dictLookup l k := by
  unfold dictLookup
  rcases eq_or_ne q.1 k with h | h
  · rw [List.find?_cons_of_pos _ (by simpa using h), if_pos h]
    rfl
  · rw [List.find?_cons_of_neg _ (by simpa using h), if_neg h]

theorem dictLookup_append {β : Type _} (d₁ d₂ : List (String × β)) (k : String) :
    dictLookup (d₁ ++ d₂) k = (dictLookup d₁ k).or (dictLookup d₂ k) := by
  unfold dictLookup
  rw [List.find?_append]
  cases List.find? (fun p => p.1 == k) d₁ <;> simp

theorem dictLookup_isSome_iff {β : Type _} (d : List (String × β)) (k : String) :
    (dictLookup d k).isSome ↔ k ∈ d.map Prod.fst := by
  unfold dictLookup
  rcases hf : List.find? (fun p => p.1 == k) d with _ | p
  · rw [hf]
    simp only [Option.map_none', Option.isSome_none, Bool.false_eq_true,
      false_iff]
    intro hmem
    obtain ⟨x, hx, hxk⟩ := List.mem_map.mp hmem
    have : (List.find? (fun p => p.1 == k) d).isSome := by
      rw [List.find?_isSome]
      exact ⟨x, hx, by simp [hxk]⟩
    rw [hf] at this
    simp at this
  · have hp := List.find?_some hf
    have hmem := List.mem_of_find?_eq_some hf
    rw [hf]
    simp only [Option.map_some', Option.isSome_some, true_iff]
    exact List.mem_map.mpr ⟨p, hmem, by simpa using hp⟩

theorem dictLookup_replace {β : Type _} (d : List (String × β)) (k k' : String)
    (v : β) :
    dictLookup (d.map (fun p => if p.1 = k then (p.1, v) else p)) k' =
      if k' = k then (dictLookup d k).map (fun _ => v) else dictLookup d k' := by
  induction d with
  | nil => simp [dictLookup]
  | cons p rest ih =>
      rw [List.map_cons]
      rcases eq_or_ne p.1 k with hpk | hpk
      · rw [if_pos hpk]
        rcases eq_or_ne k' k with hk' | hk'
        · rw [dictLookup_cons, if_pos (hpk.trans hk'.symm), if_pos hk',
            dictLookup_cons, if_pos hpk]
          rfl
        · rw [dictLookup_cons, if_neg (fun h => hk' (h.symm.trans hpk)), ih,
            if_neg hk', if_neg hk', dictLookup_cons,
            if_neg (fun h => hk' (h.symm.trans hpk))]
      · rw [if_neg hpk]
        rcases eq_or_ne k' k with hk' | hk'
        · rw [dictLookup_cons, if_neg (fun h => hpk (h.trans hk')), ih,
            if_pos hk', if_pos hk', dictLookup_cons, if_neg hpk]
        · rw [dictLookup_cons, ih, if_neg hk', if_neg hk', dictLookup_cons]

theorem dictLookup_pyDictInsert {β : Type _} (d : List (String × β))
    (k k' : String) (v : β) :
    dictLookup (pyDictInsert d k v) k' =
      if k' = k then some v else dictLookup d k' := by
  unfold pyDictInsert
  by_cases hc : k ∈ d.map Prod.fst
  · rw [if_pos (by simpa [List.contains] using hc), dictLookup_replace]
    by_cases hk' : k' = k
    · rw [if_pos hk', if_pos hk']
      obtain ⟨w, hw⟩ :=
        Option.isSome_iff_exists.mp ((dictLookup_isSome_iff d k).mpr hc)
      rw [hw]
      rfl
    · rw [if_neg hk', if_neg hk']
  · rw [if_neg (by simpa [List.contains] using hc), dictLookup_append]
    by_cases hk' : k' = k
    · have hnone : dictLookup d k' = none := by
        rcases h : dictLookup d k' with _ | w
        · rfl
        · exact absurd (hk' ▸ (dictLookup_isSome_iff d k').mp (by simp [h])) hc
      have h3 : dictLookup [(k, v)] k' = some v := by
        rw [dictLookup_cons, if_pos hk'.symm]
      rw [if_pos hk', hnone, h3]
      rfl
    · rw [if_neg hk']
      have h2 : dictLookup [(k, v)] k' = none := by
        rw [dictLookup_cons, if_neg (fun h => hk' h.symm)]
        rfl
      rw [h2]
      cases dictLookup d k' <;> rfl

theorem pyEnumerate_append_singleton {α : Type _} (s : ℕ) (l : List α) (a : α) :
    pyEnumerate s (l ++ [a]) = pyEnumerate s l ++ [(s + l.length, a)] := by
  induction l generalizing s with
  | nil => simp [pyEnumerate]
  | cons b m ih =>
      simp only [List.cons_append, pyEnumerate, List.append_eq, ih (s + 1),
        List.length_cons]
      have h : s + 1 + m.length = s + (m.length + 1) := by omega
      rw [h]

theorem tokenToIdxOf_append_singleton (toks : List String) (a : String) :
    tokenToIdxOf (toks ++ [a]) =
      pyDictInsert (tokenToIdxOf toks) a toks.length := by
  unfold tokenToIdxOf pyDictOf
  rw [pyEnumerate_append_singleton, List.map_append, List.foldl_append,
    Nat.zero_add]
  rfl

/-- Main property of the `token_to_idx` dict comprehension: every token of the
list is mapped to its last occurrence index. -/
theorem dictLookup_tokenToIdxOf (toks : List String) (t : String)
    (ht : t ∈ toks) :
    ∃ i, dictLookup (tokenToIdxOf toks) t = some i ∧ i < toks.length ∧
      toks.getD i "" = t ∧
      ∀ j, i < j → j < toks.length → toks.getD j "" ≠ t := by
  induction toks using List.reverseRecOn with
  | nil => cases ht
  | append_singleton bs a ih =>
      rw [tokenToIdxOf_append_singleton]
      by_cases hta : t = a
      · refine ⟨bs.length, ?_, ?_, ?_, ?_⟩
        · rw [dictLookup_pyDictInsert, if_pos hta]
        · simp
        · rw [hta]
          simp [List.getD_eq_getElem?_getD, List.getElem?_concat_length]
        · intro j hj1 hj2
          simp at hj2
          omega
      · have htb : t ∈ bs := by
          rcases List.mem_append.mp ht with h | h
          · exact h
          · simp at h
            exact absurd h hta
        obtain ⟨i, hlook, hilen, hget, hlast⟩ := ih htb
        refine ⟨i, ?_, ?_, ?_, ?_⟩
        · rw [dictLookup_pyDictInsert, if_neg hta, hlook]
        · simp
          omega
        · rw [List.getD_eq_getElem?_getD, List.getElem?_append_left hilen,
            ← List.getD_eq_getElem?_getD]
          exact hget
        · intro j hj1 hj2
          simp at hj2
          rcases Nat.lt_or_ge j bs.length with hjb | hjb
          · rw [List.getD_eq_getElem?_getD, List.getElem?_append_left hjb,
              ← List.getD_eq_getElem?_getD]
            exact hlast j hj1 hjb
          · have hj : j = bs.length := by omega
            rw [hj]
            simp [List.getD_eq_getElem?_getD, List.getElem?_concat_length]
            exact fun h => hta h.symm

theorem dictLookup_tokenToIdxOf_mem (toks : List String) (t : String) (i : ℕ)
    (h : dictLookup (tokenToIdxOf toks) t = some i) : t ∈ toks := by
  induction toks using List.reverseRecOn with
  | nil => simp [tokenToIdxOf, pyEnumerate, pyDictOf, dictLookup] at h
  | append_singleton bs a ih =>
      rw [tokenToIdxOf_append_singleton, dictLookup_pyDictInsert] at h
      by_cases hta : t = a
      · simp [hta]
      · rw [if_neg hta] at h
        exact List.mem_append.mpr (Or.inl (ih h))

theorem mkTokenEmbedding_eq (lines : List (String × List ℝ))
    (E : TokenEmbedding) (h : mkTokenEmbedding lines = some E) :
    ∃ v vs, (keptLines lines).map Prod.snd = v :: vs ∧
      E.idx_to_token = "<unk>" :: (keptLines lines).map Prod.fst ∧
      E.idx_to_vec = List.replicate v.length 0 :: v :: vs ∧
      E.unknown_idx = 0 ∧ E.token_to_idx = tokenToIdxOf E.idx_to_token := by
  unfold mkTokenEmbedding loadEmbedding at h
  split at h
  · simp at h
  · rename_i v vs heq
    simp only [Option.map_some', Option.some.injEq] at h
    refine ⟨v, vs, heq, ?_, ?_, ?_, ?_⟩ <;> rw [← h]

theorem tokenEmbedding_lookup_lt (E : TokenEmbedding)
    (hdict : E.token_to_idx = tokenToIdxOf E.idx_to_token) (t : String) (i : ℕ)
    (hl : dictLookup E.token_to_idx t = some i) : i < E.idx_to_token.length := by
  rw [hdict] at hl
  have ht := dictLookup_tokenToIdxOf_mem E.idx_to_token t i hl
  obtain ⟨i', hl', hlt, _, _⟩ := dictLookup_tokenToIdxOf E.idx_to_token t ht
  rw [hl] at hl'
  cases hl'
  exact hlt

/-- C9: immediately after construction (and hence after any number of the pure
read-only `__getitem__` / `__len__` calls), a `TokenEmbedding` satisfies:
`len(idx_to_token)` equals the number of rows of `idx_to_vec`;
`idx_to_token[0]` is `'<unk>'`; `unknown_idx = 0`; and every token occurring
in `idx_to_token` is mapped by `token_to_idx` to an index whose token is
itself, the last occurrence winning for duplicate tokens. -/
theorem tokenEmbedding_invariants (lines : List (String × List ℝ))
    (E : TokenEmbedding) (h : mkTokenEmbedding lines = some E) :
    E.idx_to_token.length = E.idx_to_vec.length ∧
    E.idx_to_token.getD 0 "" = "<unk>" ∧
    E.unknown_idx = 0 ∧
    ∀ t ∈ E.idx_to_token, ∃ i, dictLookup E.token_to_idx t = some i ∧
      i < E.idx_to_token.length ∧ E.idx_to_token.getD i "" = t ∧
      ∀ j, i < j → j < E.idx_to_token.length →
        E.idx_to_token.getD j "" ≠ t := by
  obtain ⟨v, vs, hk, htok, hvec, hunk, hdict⟩ := mkTokenEmbedding_eq lines E h
  refine ⟨?_, ?_, hunk, ?_⟩
  · rw [htok, hvec]
    have hlen := congrArg List.length hk
    simp at hlen ⊢
    omega
  · rw [htok]
    rfl
  · intro t ht
    rw [hdict]
    exact dictLookup_tokenToIdxOf E.idx_to_token t ht

/-- Witness for C9: the concrete embedding built from `exLines` satisfies the
invariants; the construction hypothesis is discharged by computation. -/
theorem tokenEmbedding_invariants_witness :
    mkTokenEmbedding exLines = some exEmbedding ∧
    exEmbedding.idx_to_token.length = exEmbedding.idx_to_vec.length := by
  have h : mkTokenEmbedding exLines = some exEmbedding := rfl
  exact ⟨h, (tokenEmbedding_invariants exLines exEmbedding h).1⟩

theorem getD_map_of_lt {α β : Type _} (f : α → β) (l : List α) (i : ℕ)
    (hi : i < l.length) (d : α) :
    (l.map f).getD i (f d) = f (l.getD i d) := by
  rw [List.getD_eq_getElem?_getD, List.getD_eq_getElem?_getD,
    List.getElem?_map, List.getElem?_eq_getElem hi]
  rfl

/-- C1: `__getitem__` returns exactly one vector per input token, in input
order; a token present in `token_to_idx` gets the vector at its index, and a
token absent from the vocabulary gets the vector at the reserved unknown
index `0`, which is the all-zeros vector of the embedding dimension `dim`
(the common length of the data rows of the embedding file). -/
theorem tokenEmbedding_getitem_spec (lines : List (String × List ℝ))
    (E : TokenEmbedding) (toks : List String) (dim : ℕ)
    (h : mkTokenEmbedding lines = some E)
    (hd : ∀ p ∈ lines, 1 < p.2.length → p.2.length = dim) :
    (tokenEmbeddingGetItem E toks).length = toks.length ∧
    (∀ i, i < toks.length →
      (∀ idx, dictLookup E.token_to_idx (toks.getD i "") = some idx →
        (tokenEmbeddingGetItem E toks).getD i [] = E.idx_to_vec.getD idx [] ∧
          idx < E.idx_to_vec.length) ∧
      (dictLookup E.token_to_idx (toks.getD i "") = none →
        (tokenEmbeddingGetItem E toks).getD i [] = E.idx_to_vec.getD 0 [])) ∧
    E.idx_to_vec.getD 0 [] = List.replicate dim 0 ∧
    (∀ w ∈ tokenEmbeddingGetItem E toks, w.length = dim) := by
  obtain ⟨v, vs, hk, htok, hvec, hunk, hdict⟩ := mkTokenEmbedding_eq lines E h
  have hkept : ∀ w ∈ (keptLines lines).map Prod.snd, w.length = dim := by
    intro w hw
    obtain ⟨p, hp, hpw⟩ := List.mem_map.mp hw
    have hmem := List.mem_filter.mp hp
    exact hpw ▸ hd p hmem.1 (by simpa using hmem.2)
  have hvdim : v.length = dim := hkept v (by rw [hk]; exact List.mem_cons_self v vs)
  have hrows : ∀ w ∈ E.idx_to_vec, w.length = dim := by
    intro w hw
    rw [hvec] at hw
    rcases List.mem_cons.mp hw with hw0 | hw1
    · rw [hw0]
      simp [hvdim]
    · exact hkept w (by rw [hk]; exact hw1)
  have hlen : E.idx_to_token.length = E.idx_to_vec.length := by
    rw [htok, hvec]
    have hlen2 := congrArg List.length hk
    simp at hlen2 ⊢
    omega
  have hpos : 0 < E.idx_to_vec.length := by
    rw [hvec]
    simp
  have hgetd : ∀ t : String, (tokenEmbeddingGetItem E toks) =
      toks.map (fun t =>
        E.idx_to_vec.getD ((dictLookup E.token_to_idx t).getD E.unknown_idx) []) :=
    fun _ => rfl
  refine ⟨by simp [tokenEmbeddingGetItem], ?_, ?_, ?_⟩
  · intro i hi
    have hidx0 : toks.getD i "" = toks[i] := by
      rw [List.getD_eq_getElem?_getD, List.getElem?_eq_getElem hi]
      rfl
    have hpoint : (tokenEmbeddingGetItem E toks).getD i [] =
        E.idx_to_vec.getD
          ((dictLookup E.token_to_idx (toks.getD i "")).getD E.unknown_idx) [] := by
      unfold tokenEmbeddingGetItem
      rw [List.getD_eq_getElem?_getD, List.getElem?_map,
        List.getElem?_eq_getElem hi, Option.map_some', Option.getD_some, hidx0]
    constructor
    · intro idx hidx
      rw [hpoint, hidx]
      refine ⟨rfl, ?_⟩
      rw [← hlen]
      exact tokenEmbedding_lookup_lt E hdict _ idx hidx
    · intro hnone
      rw [hpoint, hnone, hunk]
      rfl
  · rw [hvec]
    simp [hvdim]
  · intro w hw
    obtain ⟨t, ht, hwt⟩ := List.mem_map.mp hw
    rcases hlook : dictLookup E.token_to_idx t with _ | idx
    · rw [← hwt]
      apply hrows
      rw [hlook, hunk]
      have : E.idx_to_vec.getD 0 [] ∈ E.idx_to_vec := by
        rw [List.getD_eq_getElem?_getD, List.getElem?_eq_getElem hpos]
        exact List.getElem_mem hpos
      simpa using this
    · rw [← hwt]
      apply hrows
      rw [hlook]
      have hlt : idx < E.idx_to_vec.length := by
        rw [← hlen]
        exact tokenEmbedding_lookup_lt E hdict t idx hlook
      rw [Option.getD_some, List.getD_eq_getElem?_getD,
        List.getElem?_eq_getElem hlt]
      exact List.getElem_mem hlt

/-- Witness for C1: the concrete embedding of `exLines` queried with a known
and an unknown token. -/
theorem tokenEmbedding_getitem_spec_witness :
    mkTokenEmbedding exLines = some exEmbedding ∧
    (tokenEmbeddingGetItem exEmbedding ["a", "zz"]).length = 2 := by
  have h : mkTokenEmbedding exLines = some exEmbedding := rfl
  have hd : ∀ p ∈ exLines, 1 < p.2.length → p.2.length = 2 := by
    intro p hp
    have hp' : p = ("a", ([1, 0] : List ℝ)) ∨ p = ("b", ([1, 0] : List ℝ)) ∨
        p = ("c", ([0, 1] : List ℝ)) := by simpa [exLines] using hp
    rcases hp' with h1 | h1 | h1 <;> (subst h1; intro _; rfl)
  exact ⟨h, (tokenEmbedding_getitem_spec exLines exEmbedding ["a", "zz"] 2 h hd).1⟩

theorem cosScores_length (W : List (List ℝ)) (x : List ℝ) :
    (cosScores W x).length = W.length := by
  simp [cosScores]

theorem npxTopk_facts (v : List ℝ) (k : ℕ) (hk : k ≤ v.length) :
    (npxTopk v k).length = k ∧ (npxTopk v k).Nodup ∧
    (∀ i ∈ npxTopk v k, i < v.length) ∧
    (npxTopk v k).Pairwise (fun i j => v.getD j 0 ≤ v.getD i 0) ∧
    (∀ j, j < v.length → j ∉ npxTopk v k →
      ∀ i ∈ npxTopk v k, v.getD j 0 ≤ v.getD i 0) := by
  set r : ℕ → ℕ → Prop := fun i j => v.getD j 0 ≤ v.getD i 0 with hr
  haveI : IsTotal ℕ r := ⟨fun a b => le_total (v.getD b 0) (v.getD a 0)⟩
  haveI : IsTrans ℕ r := ⟨fun _ _ _ hab hbc => le_trans hbc hab⟩
  set L : List ℕ := List.insertionSort r (List.range v.length) with hL
  have hperm : L.Perm (List.range v.length) := List.perm_insertionSort r _
  have hsorted : L.Pairwise r := List.sorted_insertionSort r _
  have hLlen : L.length = v.length := by
    rw [hperm.length_eq, List.length_range]
  have hnodup : L.Nodup := hperm.nodup_iff.mpr (List.nodup_range _)
  have htake : npxTopk v k = L.take k := rfl
  have hmemL : ∀ i ∈ L, i < v.length := by
    intro i hi
    have := hperm.mem_iff.mp hi
    simpa using this
  refine ⟨?_, ?_, ?_, ?_, ?_⟩
  · rw [htake, List.length_take, hLlen]
    omega
  · rw [htake]
    exact (List.take_sublist k L).nodup hnodup
  · intro i hi
    exact hmemL i (List.mem_of_mem_take (htake ▸ hi))
  · rw [htake]
    exact hsorted.sublist (List.take_sublist k L)
  · intro j hj hjnot i hi
    have hjL : j ∈ L := hperm.mem_iff.mpr (by simpa using hj)
    have hjdrop : j ∈ L.drop k := by
      rcases List.mem_append.mp
          ((List.take_append_drop k L) ▸ hjL) with hcase | hcase
      · exact absurd hcase (htake ▸ hjnot)
      · exact hcase
    have hcross := (List.pairwise_append.mp
      ((List.take_append_drop k L).symm ▸ hsorted)).2.2
    exact hcross i (htake ▸ hi) j hjdrop

/-- C2: for a matrix `W` with at least `k` rows and a query `x`, `knn W x k`
returns `k` distinct valid row indices ordered by decreasing cosine
similarity (the score of row `i` being
`dot(W_i, x) / (sqrt(||W_i||² + 1e-9) * ||x||)`), every row left out scoring
no higher than every returned row, together with the list of the `k` scores
in the same order. -/
theorem knn_spec (W : List (List ℝ)) (x : List ℝ) (k : ℕ)
    (hk : k ≤ W.length) :
    (knn W x k).1.length = k ∧
    (knn W x k).1.Nodup ∧
    (∀ i ∈ (knn W x k).1, i < W.length) ∧
    (∀ i, i < W.length →
      (cosScores W x).getD i 0 =
        dotL (W.getD i []) x /
          (Real.sqrt (dotL (W.getD i []) (W.getD i []) + 1e-9) *
            Real.sqrt (dotL x x))) ∧
    (knn W x k).2 = (knn W x k).1.map (fun i => (cosScores W x).getD i 0) ∧
    (knn W x k).2.Pairwise (fun a b => b ≤ a) ∧
    (∀ j, j < W.length → j ∉ (knn W x k).1 →
      ∀ i ∈ (knn W x k).1,
        (cosScores W x).getD j 0 ≤ (cosScores W x).getD i 0) := by
  have hk' : k ≤ (cosScores W x).length := by
    rw [cosScores_length]
    exact hk
  obtain ⟨hlen, hnodup, hmem, hpair, hdom⟩ := npxTopk_facts (cosScores W x) k hk'
  have h1 : (knn W x k).1 = npxTopk (cosScores W x) k := rfl
  refine ⟨?_, ?_, ?_, ?_, rfl, ?_, ?_⟩
  · rw [h1, hlen]
  · rw [h1]
    exact hnodup
  · intro i hi
    have := hmem i (h1 ▸ hi)
    rwa [cosScores_length] at this
  · intro i hi
    unfold cosScores
    rw [List.getD_eq_getElem?_getD, List.getElem?_map,
      List.getElem?_eq_getElem hi, Option.map_some', Option.getD_some,
      List.getD_eq_getElem?_getD, List.getElem?_eq_getElem hi]
    rfl
  · show ((knn W x k).1.map fun i => (cosScores W x).getD i 0).Pairwise _
    rw [List.pairwise_map]
    exact h1 ▸ hpair
  · intro j hj hjnot i hi
    exact hdom j (by rwa [cosScores_length]) (h1 ▸ hjnot) i (h1 ▸ hi)

/-- Witness for C2 at a concrete input: a two-row matrix queried with `k = 1`. -/
theorem knn_spec_witness :
    (1 : ℕ) ≤ ([[1], [0]] : List (List ℝ)).length ∧
    (knn [[1], [0]] [1] 1).1.length = 1 := by
  have hk : (1 : ℕ) ≤ ([[1], [0]] : List (List ℝ)).length := by norm_num
  exact ⟨hk, (knn_spec [[1], [0]] [1] 1 hk).1⟩

theorem npxTopk_four (v : List ℝ) (hlen : v.length = 4)
    (h0 : v.getD 0 0 = 0) (h1 : v.getD 1 0 = 0) (h2 : v.getD 2 0 = 0)
    (h3 : 0 < v.getD 3 0) : npxTopk v 1 = [3] := by
  have h23 : ¬ (v.getD 3 0 ≤ v.getD 2 0) := by
    rw [h2]
    exact not_le.mpr h3
  have h13 : ¬ (v.getD 3 0 ≤ v.getD 1 0) := by
    rw [h1]
    exact not_le.mpr h3
  have h03 : ¬ (v.getD 3 0 ≤ v.getD 0 0) := by
    rw [h0]
    exact not_le.mpr h3
  have h12 : v.getD 2 0 ≤ v.getD 1 0 := by
    rw [h1, h2]
  have h01 : v.getD 1 0 ≤ v.getD 0 0 := by
    rw [h0, h1]
  unfold npxTopk
  rw [hlen]
  have hrange : List.range 4 = [0, 1, 2, 3] := rfl
  rw [hrange]
  simp only [List.insertionSort, List.orderedInsert, if_pos h12, if_pos h01,
    if_neg h23, if_neg h13, if_neg h03]
  rfl

/-- C10: `get_analogy` searches the single nearest neighbor of
`vec(b) - vec(a) + vec(c)` over the whole embedding table, with no exclusion
applied despite the in-code comment: on the concrete embedding built from
`exLines`, the returned token is `"c"`, one of the three input tokens. -/
theorem getAnalogy_no_exclusion :
    mkTokenEmbedding exLines = some exEmbedding ∧
    getAnalogy "a" "b" "c" exEmbedding = "c" ∧
    "c" ∈ ["a", "b", "c"] := by
  refine ⟨rfl, ?_, by simp⟩
  have hq0 : dotL [0, 0] exQuery = 0 := by
    norm_num [dotL, exQuery]
  have hq1 : dotL [1, 0] exQuery = 0 := by
    norm_num [dotL, exQuery]
  have hq3 : dotL [0, 1] exQuery = 1 := by
    norm_num [dotL, exQuery]
  have hq33 : dotL ([0, 1] : List ℝ) [0, 1] = 1 := by
    norm_num [dotL]
  have hqq : dotL exQuery exQuery = 1 := by
    norm_num [dotL, exQuery]
  have e0 : (cosScores exEmbedding.idx_to_vec exQuery).getD 0 0 =
      dotL [0, 0] exQuery /
        (Real.sqrt (dotL [0, 0] [0, 0] + 1e-9) *
          Real.sqrt (dotL exQuery exQuery)) := rfl
  have e1 : (cosScores exEmbedding.idx_to_vec exQuery).getD 1 0 =
      dotL [1, 0] exQuery /
        (Real.sqrt (dotL [1, 0] [1, 0] + 1e-9) *
          Real.sqrt (dotL exQuery exQuery)) := rfl
  have e2 : (cosScores exEmbedding.idx_to_vec exQuery).getD 2 0 =
      dotL [1, 0] exQuery /
        (Real.sqrt (dotL [1, 0] [1, 0] + 1e-9) *
          Real.sqrt (dotL exQuery exQuery)) := rfl
  have e3 : (cosScores exEmbedding.idx_to_vec exQuery).getD 3 0 =
      dotL [0, 1] exQuery /
        (Real.sqrt (dotL [0, 1] [0, 1] + 1e-9) *
          Real.sqrt (dotL exQuery exQuery)) := rfl
  have key : npxTopk (cosScores exEmbedding.idx_to_vec exQuery) 1 = [3] := by
    apply npxTopk_four
    · simp [cosScores, exEmbedding]
    · rw [e0, hq0, zero_div]
    · rw [e1, hq1, zero_div]
    · rw [e2, hq1, zero_div]
    · rw [e3, hq3, hq33, hqq]
      have hpos : (0 : ℝ) < 1 + 1e-9 := by norm_num
      have hs1 : (0 : ℝ) < Real.sqrt (1 + 1e-9) := Real.sqrt_pos.mpr hpos
      have hs2 : (0 : ℝ) < Real.sqrt 1 := Real.sqrt_pos.mpr one_pos
      positivity
  show exEmbedding.idx_to_token.getD
    ((knn exEmbedding.idx_to_vec exQuery 1).1.getD 0 0) "" = "c"
  have hfst : (knn exEmbedding.idx_to_vec exQuery 1).1 =
      npxTopk (cosScores exEmbedding.idx_to_vec exQuery) 1 := rfl
  rw [hfst, key]
  rfl

theorem absSum_cons (a : ℚ) (l : List ℚ) : absSum (a :: l) = |a| + absSum l := by
  simp [absSum]

theorem absSum_halveStep (x : List ℚ) : absSum (halveStep x) = absSum x / 2 := by
  induction x with
  | nil => simp [absSum, halveStep]
  | cons a l ih =>
      have h1 : halveStep (a :: l) = (a / 2) :: halveStep l := rfl
      rw [h1, absSum_cons, absSum_cons, ih, abs_div, abs_two]
      ring

theorem runWhile_absSum_le (k : ℕ) :
    ∀ x : List ℚ, absSum x ≤ 2 ^ k → absSum (runWhile k x) ≤ 1 := by
  induction k with
  | zero =>
      intro x hx
      simpa using hx
  | succ k ih =>
      intro x hx
      rw [runWhile]
      split
      · apply ih
        rw [absSum_halveStep, pow_succ] at *
        linarith
      · next h => exact not_lt.mp h

theorem absSum_le_two_pow_halveFuel (x : List ℚ) :
    absSum x ≤ 2 ^ halveFuel x := by
  have h1 : absSum x ≤ (⌈absSum x⌉₊ : ℚ) := Nat.le_ceil _
  have h2 : (⌈absSum x⌉₊ : ℚ) ≤ 2 ^ ⌈absSum x⌉₊ := by
    have h3 := Nat.lt_two_pow ⌈absSum x⌉₊
    exact_mod_cast h3.le
  exact le_trans h1 h2

theorem abs_sum_le_absSum (x : List ℚ) : |x.sum| ≤ absSum x := by
  induction x with
  | nil => simp [absSum]
  | cons a l ih =>
      rw [List.sum_cons, absSum_cons]
      calc |a + l.sum| ≤ |a| + |l.sum| := abs_add _ _
        _ ≤ |a| + absSum l := by linarith

theorem halveStep_iterate_absSum (x : List ℚ) (k : ℕ) :
    absSum (halveStep^[k] x) = absSum x / 2 ^ k := by
  induction k with
  | zero => simp
  | succ k ih =>
      rw [Function.iterate_succ_apply', absSum_halveStep, ih, pow_succ,
        div_div]

/-- C8: for every (finite, here rational) vector entering the loop of
`FixedHiddenMLP.forward`, the halving terminates — some finite number of
halvings brings the sum of absolute entries to at most 1 — the fuel used in
the embedding is sufficient (the loop exit condition holds at the result),
and the returned scalar `x.sum()` has absolute value at most 1. -/
theorem fixedHiddenMLP_loop_spec (x : List ℚ) :
    (∃ k, absSum (halveStep^[k] x) ≤ 1) ∧
    absSum (fixedHiddenLoop x) ≤ 1 ∧
    |fixedHiddenForward x| ≤ 1 := by
  have hfuel := absSum_le_two_pow_halveFuel x
  have hloop : absSum (fixedHiddenLoop x) ≤ 1 :=
    runWhile_absSum_le (halveFuel x) x hfuel
  refine ⟨⟨halveFuel x, ?_⟩, hloop, le_trans (abs_sum_le_absSum _) hloop⟩
  rw [halveStep_iterate_absSum, div_le_one (by positivity)]
  exact hfuel

/-- C7: the submission id column holds the integers `1 .. n` in the
lexicographic order of their decimal string representations, and the rows
pair the ids positionally with the predictions in test-loader order, one row
per test example. -/
theorem submission_ids_spec {α : Type _} (n : ℕ) (preds : List α)
    (h : preds.length = n) :
    (pySortedIds n).Perm (List.range' 1 n) ∧
    (pySortedIds n).Pairwise (fun a b => toString a ≤ toString b) ∧
    (submissionRows n preds).length = n ∧
    (submissionRows n preds).map Prod.fst = pySortedIds n ∧
    (submissionRows n preds).map Prod.snd = preds := by
  set r : ℕ → ℕ → Prop := fun a b => toString a ≤ toString b with hr
  haveI : IsTotal ℕ r := ⟨fun a b => le_total (toString a) (toString b)⟩
  haveI : IsTrans ℕ r := ⟨fun _ _ _ hab hbc => le_trans hab hbc⟩
  have hperm : (pySortedIds n).Perm (List.range' 1 n) :=
    List.perm_insertionSort r _
  have hlen : (pySortedIds n).length = n := by
    rw [hperm.length_eq, List.length_range']
  refine ⟨hperm, List.sorted_insertionSort r _, ?_, ?_, ?_⟩
  · rw [submissionRows, List.length_zip, hlen, h, Nat.min_self]
  · rw [submissionRows]
    exact List.map_fst_zip _ _ (by rw [hlen, h])
  · rw [submissionRows]
    exact List.map_snd_zip _ _ (by rw [hlen, h])

/-- Witness for C7 with two predictions. -/
theorem submission_ids_spec_witness :
    ([10, 20] : List ℕ).length = 2 ∧
    (submissionRows 2 ([10, 20] : List ℕ)).length = 2 := by
  have h : ([10, 20] : List ℕ).length = 2 := rfl
  exact ⟨h, (submission_ids_spec 2 [10, 20] h).2.2.1⟩

theorem reorgLoop_keyError (dataDir : List String)
    (labels : List (String × String)) (nv : ℕ) (files : List String) :
    ∀ cnt : String → Option ℕ,
      (∃ f ∈ files, dictLookup labels (stem f) = none) →
      ∃ f', f' ∈ files ∧ dictLookup labels (stem f') = none ∧
        reorgLoop dataDir labels nv files cnt =
          .error (.keyError (stem f')) := by
  induction files with
  | nil =>
      rintro cnt ⟨f, hf, _⟩
      cases hf
  | cons g rest ih =>
      rintro cnt ⟨f, hf, hnone⟩
      rcases hlook : dictLookup labels (stem g) with _ | l
      · exact ⟨g, List.mem_cons_self g rest, hlook,
          by simp only [reorgLoop, hlook]⟩
      · have hfr : f ∈ rest := by
          rcases List.mem_cons.mp hf with h1 | h1
          · rw [← h1, hnone] at hlook
            simp at hlook
          · exact h1
        by_cases hcond : cnt l = none ∨ (cnt l).getD 0 < nv
        · obtain ⟨f', hf', hn', herr⟩ := ih
            (fun l' => if l' = l then some ((cnt l).getD 0 + 1) else cnt l')
            ⟨f, hfr, hnone⟩
          refine ⟨f', List.mem_cons_of_mem g hf', hn', ?_⟩
          simp only [reorgLoop, hlook, if_pos hcond, herr]
          rfl
        · obtain ⟨f', hf', hn', herr⟩ := ih cnt ⟨f, hfr, hnone⟩
          refine ⟨f', List.mem_cons_of_mem g hf', hn', ?_⟩
          simp only [reorgLoop, hlook, if_neg hcond, herr]
          rfl

/-- C5: no notebook function catches or translates errors:
`read_csv_labels` propagates a file-system error from opening the file
unchanged, and `reorg_train_valid` on a listing containing a file whose stem
is not a key of the label map stops with the uncaught `KeyError` for that
stem, producing no result (no fallback). -/
theorem errors_uncaught (e : PyError) (dataDir : List String)
    (labels : List (String × String)) (ratio : ℚ) (files : List String)
    (n : ℕ) (f : String) (hmin : minClassCount labels = some n)
    (hf : f ∈ files) (hmiss : dictLookup labels (stem f) = none) :
    readCsvLabels (.error e) = .error e ∧
    ∃ f', f' ∈ files ∧ dictLookup labels (stem f') = none ∧
      reorgTrainValid dataDir labels ratio files =
        .error (.keyError (stem f')) := by
  refine ⟨rfl, ?_⟩
  obtain ⟨f', hf', hn', herr⟩ := reorgLoop_keyError dataDir labels
    (nValidPerLabel n ratio) files (fun _ => none) ⟨f, hf, hmiss⟩
  refine ⟨f', hf', hn', ?_⟩
  unfold reorgTrainValid
  rw [hmin]
  exact herr

/-- Witness for C5: a one-file listing whose stem is missing from the label
map. -/
theorem errors_uncaught_witness :
    minClassCount [("a", "cat")] = some 1 ∧
    readCsvLabels (.error (.ioError "boom")) = .error (.ioError "boom") ∧
    ∃ f', f' ∈ ["b.png"] ∧ dictLookup [("a", "cat")] (stem f') = none ∧
      reorgTrainValid ["d"] [("a", "cat")] (1 / 2) ["b.png"] =
        .error (.keyError (stem f')) := by
  have hmin : minClassCount [("a", "cat")] = some 1 := by decide
  have hf : "b.png" ∈ ["b.png"] := by decide
  have hmiss : dictLookup [("a", "cat")] (stem "b.png") = none := by decide
  obtain ⟨h1, h2⟩ := errors_uncaught (.ioError "boom") ["d"] [("a", "cat")]
    (1 / 2) ["b.png"] 1 "b.png" hmin hf hmiss
  exact ⟨hmin, h1, h2⟩

theorem tvtDir_eq_iff (dataDir : List String) (s1 s2 l1 l2 : String) :
    tvtDir dataDir s1 l1 = tvtDir dataDir s2 l2 ↔ s1 = s2 ∧ l1 = l2 := by
  unfold tvtDir
  constructor
  · intro h
    have h2 := List.append_cancel_left h
    simpa using h2
  · rintro ⟨h1, h2⟩
    rw [h1, h2]

theorem trainSrcPath_eq_iff (dataDir : List String) (f f' : String) :
    trainSrcPath dataDir f = trainSrcPath dataDir f' ↔ f = f' := by
  unfold trainSrcPath
  constructor
  · intro h
    have h2 := List.append_cancel_left h
    simpa using h2
  · intro h
    rw [h]

theorem reorgLoop_spec (dataDir : List String)
    (labels : List (String × String)) (nv : ℕ) (hnv : 1 ≤ nv)
    (files : List String) :
    ∀ cnt : String → Option ℕ,
      (∀ f ∈ files, (dictLookup labels (stem f)).isSome) →
      files.Nodup →
      (∀ l, (cnt l).getD 0 ≤ nv) →
      ∃ cs, reorgLoop dataDir labels nv files cnt = .ok cs ∧
        (∀ c ∈ cs, ∃ f ∈ files, c.src = trainSrcPath dataDir f) ∧
        (∀ f ∈ files, ∀ l, dictLookup labels (stem f) = some l →
          cs.countP (fun c => c.src == trainSrcPath dataDir f &&
            c.dest == tvtDir dataDir "train_valid" l) = 1 ∧
          cs.countP (fun c => c.src == trainSrcPath dataDir f &&
            (c.dest == tvtDir dataDir "valid" l ||
             c.dest == tvtDir dataDir "train" l)) = 1) ∧
        (∀ l, validCopies dataDir cs l =
          min (nv - (cnt l).getD 0) (labelCountIn labels files l)) ∧
        (∀ c ∈ cs, ∃ sub lab, c.dest = tvtDir dataDir sub lab) := by
  have hdir : ∀ s s' : String, s ≠ s' → ∀ l l' : String,
      ¬ tvtDir dataDir s l = tvtDir dataDir s' l' := by
    intro s s' hss l l' h
    exact hss ((tvtDir_eq_iff dataDir s s' l l').mp h).1
  induction files with
  | nil =>
      intro cnt _ _ _
      refine ⟨[], rfl, ?_, ?_, ?_, ?_⟩
      · rintro c hc
        cases hc
      · rintro f hf
        cases hf
      · intro l
        simp [validCopies, labelCountIn]
      · rintro c hc
        cases hc
  | cons g rest ih =>
      intro cnt hcov hnd hcnt
      have hg := hcov g (List.mem_cons_self g rest)
      rcases hlookg : dictLookup labels (stem g) with _ | l0
      · rw [hlookg] at hg
        simp at hg
      have hc0le : (cnt l0).getD 0 ≤ nv := hcnt l0
      have hndrest : rest.Nodup := (List.nodup_cons.mp hnd).2
      have hgnotin : g ∉ rest := (List.nodup_cons.mp hnd).1
      have hcovrest : ∀ f ∈ rest, (dictLookup labels (stem f)).isSome :=
        fun f hf => hcov f (List.mem_cons_of_mem g hf)
      have hgcount : labelCountIn labels (g :: rest) l0 =
          labelCountIn labels rest l0 + 1 := by
        unfold labelCountIn
        rw [List.countP_cons]
        simp [hlookg]
      have hgcountNe : ∀ l, l ≠ l0 → labelCountIn labels (g :: rest) l =
          labelCountIn labels rest l := by
        intro l hl
        unfold labelCountIn
        rw [List.countP_cons]
        simp [hlookg, Ne.symm hl]
      by_cases hlt : (cnt l0).getD 0 < nv
      · -- the class quota is not yet filled: copy to valid
        obtain ⟨cs', hok', hsrc', hfile', hvalid', hdest'⟩ :=
          ih (fun l => if l = l0 then some ((cnt l0).getD 0 + 1) else cnt l)
            hcovrest hndrest (by
              intro lv
              show (if lv = l0 then some ((cnt l0).getD 0 + 1)
                else cnt lv).getD 0 ≤ nv
              by_cases h : lv = l0
              · rw [if_pos h, Option.getD_some]
                omega
              · rw [if_neg h]
                exact hcnt lv)
        refine ⟨⟨trainSrcPath dataDir g, tvtDir dataDir "train_valid" l0⟩ ::
            ⟨trainSrcPath dataDir g, tvtDir dataDir "valid" l0⟩ :: cs',
          ?_, ?_, ?_, ?_, ?_⟩
        · simp only [reorgLoop, hlookg, if_pos (Or.inr hlt), hok']
          rfl
        · rintro c hc
          rcases List.mem_cons.mp hc with h1 | hc
          · exact ⟨g, List.mem_cons_self g rest, by rw [h1]⟩
          rcases List.mem_cons.mp hc with h1 | hc
          · exact ⟨g, List.mem_cons_self g rest, by rw [h1]⟩
          · obtain ⟨f, hf, hsrc⟩ := hsrc' c hc
            exact ⟨f, List.mem_cons_of_mem g hf, hsrc⟩
        · intro f hf l hl
          rcases List.mem_cons.mp hf with h1 | hfr
          · subst h1
            rw [hlookg] at hl
            have hleq : l0 = l := Option.some.inj hl
            rw [← hleq]
            have hzero1 : cs'.countP (fun c =>
                c.src == trainSrcPath dataDir f &&
                c.dest == tvtDir dataDir "train_valid" l0) = 0 := by
              rw [List.countP_eq_zero]
              intro c hc hp
              obtain ⟨f2, hf2, hsrc⟩ := hsrc' c hc
              have h1 := ((Bool.and_eq_true _ _).mp hp).1
              rw [hsrc, beq_iff_eq] at h1
              rw [(trainSrcPath_eq_iff dataDir f2 f).mp h1] at hf2
              exact hgnotin hf2
            have hzero2 : cs'.countP (fun c =>
                c.src == trainSrcPath dataDir f &&
                (c.dest == tvtDir dataDir "valid" l0 ||
                 c.dest == tvtDir dataDir "train" l0)) = 0 := by
              rw [List.countP_eq_zero]
              intro c hc hp
              obtain ⟨f2, hf2, hsrc⟩ := hsrc' c hc
              have h1 := ((Bool.and_eq_true _ _).mp hp).1
              rw [hsrc, beq_iff_eq] at h1
              rw [(trainSrcPath_eq_iff dataDir f2 f).mp h1] at hf2
              exact hgnotin hf2
            constructor
            · rw [List.countP_cons, List.countP_cons, hzero1]
              simp [hdir "valid" "train_valid" (by decide)]
            · rw [List.countP_cons, List.countP_cons, hzero2]
              simp [hdir "train_valid" "valid" (by decide),
                hdir "train_valid" "train" (by decide)]
          · have hfg : f ≠ g := fun h => hgnotin (h ▸ hfr)
            have hfneq : ¬ trainSrcPath dataDir g = trainSrcPath dataDir f :=
              fun h => hfg ((trainSrcPath_eq_iff dataDir g f).mp h).symm
            obtain ⟨hcount1, hcount2⟩ := hfile' f hfr l hl
            constructor
            · rw [List.countP_cons, List.countP_cons, hcount1]
              simp [hfneq]
            · rw [List.countP_cons, List.countP_cons, hcount2]
              simp [hfneq]
        · intro l
          unfold validCopies
          rw [List.countP_cons, List.countP_cons]
          by_cases hll : l = l0
          · rw [hll]
            have hv := hvalid' l0
            rw [if_pos rfl, Option.getD_some] at hv
            unfold validCopies at hv
            rw [hv, hgcount]
            simp [hdir "train_valid" "valid" (by decide)]
            omega
          · have hv := hvalid' l
            rw [if_neg hll] at hv
            unfold validCopies at hv
            rw [hv, hgcountNe l hll]
            have hc2 : ¬ tvtDir dataDir "valid" l0 = tvtDir dataDir "valid" l :=
              fun h => hll (((tvtDir_eq_iff dataDir "valid" "valid" l0 l).mp
                h).2).symm
            simp [hdir "train_valid" "valid" (by decide), hc2]
        · rintro c hc
          rcases List.mem_cons.mp hc with h1 | hc
          · exact ⟨"train_valid", l0, by rw [h1]⟩
          rcases List.mem_cons.mp hc with h1 | hc
          · exact ⟨"valid", l0, by rw [h1]⟩
          · exact hdest' c hc
      · -- the class quota is already filled: copy to train
        have hcond : ¬ (cnt l0 = none ∨ (cnt l0).getD 0 < nv) := by
          rintro (h | h)
          · rw [h] at hlt
            simp at hlt
            omega
          · exact hlt h
        obtain ⟨cs', hok', hsrc', hfile', hvalid', hdest'⟩ :=
          ih cnt hcovrest hndrest hcnt
        refine ⟨⟨trainSrcPath dataDir g, tvtDir dataDir "train_valid" l0⟩ ::
            ⟨trainSrcPath dataDir g, tvtDir dataDir "train" l0⟩ :: cs',
          ?_, ?_, ?_, ?_, ?_⟩
        · simp only [reorgLoop, hlookg, if_neg hcond, hok']
          rfl
        · rintro c hc
          rcases List.mem_cons.mp hc with h1 | hc
          · exact ⟨g, List.mem_cons_self g rest, by rw [h1]⟩
          rcases List.mem_cons.mp hc with h1 | hc
          · exact ⟨g, List.mem_cons_self g rest, by rw [h1]⟩
          · obtain ⟨f, hf, hsrc⟩ := hsrc' c hc
            exact ⟨f, List.mem_cons_of_mem g hf, hsrc⟩
        · intro f hf l hl
          rcases List.mem_cons.mp hf with h1 | hfr
          · subst h1
            rw [hlookg] at hl
            have hleq : l0 = l := Option.some.inj hl
            rw [← hleq]
            have hzero1 : cs'.countP (fun c =>
                c.src == trainSrcPath dataDir f &&
                c.dest == tvtDir dataDir "train_valid" l0) = 0 := by
              rw [List.countP_eq_zero]
              intro c hc hp
              obtain ⟨f2, hf2, hsrc⟩ := hsrc' c hc
              have h1 := ((Bool.and_eq_true _ _).mp hp).1
              rw [hsrc, beq_iff_eq] at h1
              rw [(trainSrcPath_eq_iff dataDir f2 f).mp h1] at hf2
              exact hgnotin hf2
            have hzero2 : cs'.countP (fun c =>
                c.src == trainSrcPath dataDir f &&
                (c.dest == tvtDir dataDir "valid" l0 ||
                 c.dest == tvtDir dataDir "train" l0)) = 0 := by
              rw [List.countP_eq_zero]
              intro c hc hp
              obtain ⟨f2, hf2, hsrc⟩ := hsrc' c hc
              have h1 := ((Bool.and_eq_true _ _).mp hp).1
              rw [hsrc, beq_iff_eq] at h1
              rw [(trainSrcPath_eq_iff dataDir f2 f).mp h1] at hf2
              exact hgnotin hf2
            constructor
            · rw [List.countP_cons, List.countP_cons, hzero1]
              simp [hdir "train" "train_valid" (by decide)]
            · rw [List.countP_cons, List.countP_cons, hzero2]
              simp [hdir "train_valid" "valid" (by decide),
                hdir "train_valid" "train" (by decide)]
          · have hfg : f ≠ g := fun h => hgnotin (h ▸ hfr)
            have hfneq : ¬ trainSrcPath dataDir g = trainSrcPath dataDir f :=
              fun h => hfg ((trainSrcPath_eq_iff dataDir g f).mp h).symm
            obtain ⟨hcount1, hcount2⟩ := hfile' f hfr l hl
            constructor
            · rw [List.countP_cons, List.countP_cons, hcount1]
              simp [hfneq]
            · rw [List.countP_cons, List.countP_cons, hcount2]
              simp [hfneq]
        · intro l
          unfold validCopies
          rw [List.countP_cons, List.countP_cons]
          have hv := hvalid' l
          unfold validCopies at hv
          rw [hv]
          by_cases hll : l = l0
          · rw [hll, hgcount]
            simp [hdir "train_valid" "valid" (by decide),
              hdir "train" "valid" (by decide)]
            omega
          · rw [hgcountNe l hll]
            simp [hdir "train_valid" "valid" (by decide),
              hdir "train" "valid" (by decide)]
        · rintro c hc
          rcases List.mem_cons.mp hc with h1 | hc
          · exact ⟨"train_valid", l0, by rw [h1]⟩
          rcases List.mem_cons.mp hc with h1 | hc
          · exact ⟨"train", l0, by rw [h1]⟩
          · exact hdest' c hc

/-- C3: for a nonempty label map covering all training filenames and any
`valid_ratio`, `reorg_train_valid` copies each listed file into
`train_valid_test/train_valid/<label>` and additionally into exactly one of
`train_valid_test/valid/<label>` or `train_valid_test/train/<label>`, and per
class exactly `min(max(1, floor(n * valid_ratio)), class size)` files land in
`valid`, where `n` is the size of the smallest class of the label map. -/
theorem reorg_train_valid_spec (dataDir : List String)
    (labels : List (String × String)) (ratio : ℚ) (files : List String)
    (n : ℕ) (hmin : minClassCount labels = some n)
    (hcov : ∀ f ∈ files, (dictLookup labels (stem f)).isSome)
    (hnd : files.Nodup) :
    ∃ cs, reorgTrainValid dataDir labels ratio files = .ok cs ∧
      (∀ f ∈ files, ∀ l, dictLookup labels (stem f) = some l →
        cs.countP (fun c => c.src == trainSrcPath dataDir f &&
          c.dest == tvtDir dataDir "train_valid" l) = 1 ∧
        cs.countP (fun c => c.src == trainSrcPath dataDir f &&
          (c.dest == tvtDir dataDir "valid" l ||
           c.dest == tvtDir dataDir "train" l)) = 1) ∧
      (∀ l, validCopies dataDir cs l =
        min (nValidPerLabel n ratio) (labelCountIn labels files l)) := by
  have hnv : 1 ≤ nValidPerLabel n ratio := by
    unfold nValidPerLabel
    have h1 := le_max_left (1 : ℤ) ⌊(n : ℚ) * ratio⌋
    omega
  obtain ⟨cs, hok, hsrc, hfile, hvalid, hdest⟩ := reorgLoop_spec dataDir labels
    (nValidPerLabel n ratio) hnv files (fun _ => none) hcov hnd
    (by intro l; simp)
  refine ⟨cs, ?_, hfile, ?_⟩
  · unfold reorgTrainValid
    rw [hmin]
    exact hok
  · intro l
    have hv := hvalid l
    simpa using hv

/-- Witness for C3: two files of one class, `valid_ratio = 1/2`. -/
theorem reorg_train_valid_spec_witness :
    minClassCount [("a", "cat"), ("b", "cat")] = some 2 ∧
    ∃ cs, reorgTrainValid ["d"] [("a", "cat"), ("b", "cat")] (1 / 2)
        ["a.png", "b.png"] = .ok cs ∧
      ∀ l, validCopies ["d"] cs l = min (nValidPerLabel 2 (1 / 2))
        (labelCountIn [("a", "cat"), ("b", "cat")] ["a.png", "b.png"] l) := by
  have hmin : minClassCount [("a", "cat"), ("b", "cat")] = some 2 := by decide
  obtain ⟨cs, hok, _, hvalid⟩ := reorg_train_valid_spec ["d"]
    [("a", "cat"), ("b", "cat")] (1 / 2) ["a.png", "b.png"] 2 hmin
    (by decide) (by decide)
  exact ⟨hmin, cs, hok, hvalid⟩

theorem exceptMap_eq_ok {ε α β : Type _} (f : α → β) (r : Except ε α) (b : β)
    (h : f <$> r = .ok b) : ∃ a, r = .ok a ∧ b = f a := by
  cases r with
  | error e =>
      have h2 : (Except.error e : Except ε β) = .ok b := h
      cases h2
  | ok a =>
      have h2 : (Except.ok (f a) : Except ε β) = .ok b := h
      exact ⟨a, rfl, (Except.ok.inj h2).symm⟩

theorem reorgLoop_dest_ok (dataDir : List String)
    (labels : List (String × String)) (nv : ℕ) (files : List String) :
    ∀ cnt cs, reorgLoop dataDir labels nv files cnt = .ok cs →
      ∀ c ∈ cs, ∃ sub lab, c.dest = tvtDir dataDir sub lab := by
  induction files with
  | nil =>
      intro cnt cs h c hc
      have h2 : Except.ok ([] : List Copy) = Except.ok cs := h
      cases h2
      cases hc
  | cons g rest ih =>
      intro cnt cs h c hc
      rcases hlook : dictLookup labels (stem g) with _ | l0
      · simp only [reorgLoop, hlook] at h
        cases h
      · simp only [reorgLoop, hlook] at h
        by_cases hcond : cnt l0 = none ∨ (cnt l0).getD 0 < nv
        · rw [if_pos hcond] at h
          obtain ⟨cs', hrec, hcs⟩ := exceptMap_eq_ok _ _ _ h
          subst hcs
          rcases List.mem_cons.mp hc with h1 | hc2
          · exact ⟨"train_valid", l0, by rw [h1]⟩
          rcases List.mem_cons.mp hc2 with h1 | hc3
          · exact ⟨"valid", l0, by rw [h1]⟩
          · exact ih _ cs' hrec c hc3
        · rw [if_neg hcond] at h
          obtain ⟨cs', hrec, hcs⟩ := exceptMap_eq_ok _ _ _ h
          subst hcs
          rcases List.mem_cons.mp hc with h1 | hc2
          · exact ⟨"train_valid", l0, by rw [h1]⟩
          rcases List.mem_cons.mp hc2 with h1 | hc3
          · exact ⟨"train", l0, by rw [h1]⟩
          · exact ih _ cs' hrec c hc3

theorem applyCopies_frame (cs : List Copy) :
    ∀ (fs : List String → Option String) (base : List String),
      (∀ c ∈ cs, ∃ t, c.dest = base ++ t) →
      ∀ p, applyCopies fs cs p ≠ fs p → pathUnder base p := by
  induction cs with
  | nil =>
      intro fs base _ p hp
      exact absurd rfl hp
  | cons c rest ih =>
      intro fs base hdest p hp
      have hstep : applyCopies fs (c :: rest) =
          applyCopies (applyCopy fs c) rest := rfl
      rw [hstep] at hp
      by_cases hcp : applyCopies (applyCopy fs c) rest p = applyCopy fs c p
      · rw [hcp] at hp
        unfold applyCopy at hp
        by_cases hpe : p = c.dest ++ [c.src.getLastD ""]
        · obtain ⟨t, ht⟩ := hdest c (List.mem_cons_self c rest)
          exact ⟨t ++ [c.src.getLastD ""],
            by rw [← List.append_assoc, ← ht, ← hpe]⟩
        · rw [if_neg hpe] at hp
          exact absurd rfl hp
      · exact ih (applyCopy fs c) base
          (fun c' hc' => hdest c' (List.mem_cons_of_mem c hc')) p hcp

/-- C6: the dataset reorganization copies rather than moves: after applying
all the copies of `reorg_train_valid` and `reorg_test` to a file system,
every path not below `data_dir/train_valid_test` — in particular every
original file under `data_dir/train` and `data_dir/test` — is unchanged, so
the only file-system additions are under `data_dir/train_valid_test`. -/
theorem reorg_copies_frame (dataDir : List String)
    (labels : List (String × String)) (ratio : ℚ)
    (files testFiles : List String) (cs : List Copy)
    (h : reorgTrainValid dataDir labels ratio files = .ok cs)
    (fs : List String → Option String) :
    (∀ p, applyCopies fs (cs ++ reorgTest dataDir testFiles) p ≠ fs p →
      pathUnder (dataDir ++ ["train_valid_test"]) p) ∧
    (∀ f, applyCopies fs (cs ++ reorgTest dataDir testFiles)
        (dataDir ++ ["train", f]) = fs (dataDir ++ ["train", f])) ∧
    (∀ f, applyCopies fs (cs ++ reorgTest dataDir testFiles)
        (dataDir ++ ["test", f]) = fs (dataDir ++ ["test", f])) := by
  have hdest : ∀ c ∈ cs ++ reorgTest dataDir testFiles,
      ∃ t, c.dest = (dataDir ++ ["train_valid_test"]) ++ t := by
    intro c hc
    rcases List.mem_append.mp hc with hc1 | hc2
    · unfold reorgTrainValid at h
      rcases hmin : minClassCount labels with _ | n
      · rw [hmin] at h
        cases h
      · rw [hmin] at h
        obtain ⟨sub, lab, hd⟩ :=
          reorgLoop_dest_ok dataDir labels _ files _ cs h c hc1
        refine ⟨[sub, lab], ?_⟩
        rw [hd]
        unfold tvtDir
        simp
    · obtain ⟨f, hf, hcf⟩ := List.mem_map.mp hc2
      refine ⟨["test", "unknown"], ?_⟩
      rw [← hcf]
      simp
  have hmain := applyCopies_frame (cs ++ reorgTest dataDir testFiles) fs
    (dataDir ++ ["train_valid_test"]) hdest
  refine ⟨hmain, ?_, ?_⟩
  · intro f
    by_contra hne
    obtain ⟨t, ht⟩ := hmain _ hne
    rw [List.append_assoc] at ht
    have h2 := List.append_cancel_left ht
    simp at h2
  · intro f
    by_contra hne
    obtain ⟨t, ht⟩ := hmain _ hne
    rw [List.append_assoc] at ht
    have h2 := List.append_cancel_left ht
    simp at h2

/-- Witness for C6: one training file, one test file, an empty file system. -/
theorem reorg_copies_frame_witness :
    reorgTrainValid ["d"] [("a", "cat")] (1 / 2) ["a.png"] = .ok exCopies ∧
    ∀ f, applyCopies (fun _ => none) (exCopies ++ reorgTest ["d"] ["t.png"])
        (["d"] ++ ["train", f]) = (fun _ => none) (["d"] ++ ["train", f]) := by
  have hmin : minClassCount [("a", "cat")] = some 1 := by decide
  have hnv : nValidPerLabel 1 (1 / 2) = 1 := by
    unfold nValidPerLabel
    norm_num
  have hok : reorgTrainValid ["d"] [("a", "cat")] (1 / 2) ["a.png"] =
      .ok exCopies := by
    unfold reorgTrainValid
    rw [hmin]
    show reorgLoop ["d"] [("a", "cat")] (nValidPerLabel 1 (1 / 2)) ["a.png"]
      (fun _ => none) = .ok exCopies
    rw [hnv]
    rfl
  exact ⟨hok, (reorg_copies_frame ["d"] [("a", "cat")] (1 / 2) ["a.png"]
    ["t.png"] exCopies hok (fun _ => none)).2.1⟩

end D2L
